import Mathlib

/-!
Shallow embedding of the fizz excerpt:
  * fizz/protocol/HandshakeContext-inl.h  (HandshakeContextImpl<Hash>)
  * fizz/protocol/FizzBase.h              (FizzBase declarations and member
    initializers; the drain implementation lives in FizzBase-inl.h, which is
    not part of the excerpt and is therefore modelled from the spec)

Bytes are modelled as lists of naturals.  The external hash engine
(folly::ssl::OpenSSLHash with Hash::HashEngine), Hash::hmac and
KeyDerivationImpl<Hash>::expandLabel are external capabilities of the
template parameter Hash; they are modelled as an abstract HashPolicy
structure whose length contracts mirror the API guarantees (each fills
exactly the output buffer it is handed).
-/

namespace Fizz

/-- A byte string (folly Buf / IOBuf contents). -/
abbrev Bytes := List Nat

/-- Byte content of a string literal, for the concrete scenarios. -/
def strBytes (s : String) : Bytes := s.data.map Char.toNat

/-- Capabilities of the template parameter Hash together with the key
derivation used by getFinishedData: a one-shot digest over a byte stream,
an HMAC, and label-based key expansion.  The length fields record the
external API contracts: the digest and the HMAC fill a buffer of
Hash::HashLen bytes, and expandLabel produces exactly the requested number
of bytes. -/
structure HashPolicy where
  HashLen : Nat
  hash : Bytes → Bytes
  hmac : Bytes → Bytes → Bytes
  expandLabel : Bytes → Bytes → Bytes → Nat → Bytes
  hash_len : ∀ b, (hash b).length = HashLen
  hmac_len : ∀ k d, (hmac k d).length = HashLen
  expandLabel_len : ∀ k lbl ctx n, (expandLabel k lbl ctx n).length = n

/-- Model of the incremental hash context folly::ssl::OpenSSLHash::Digest:
the ordered list of byte chunks absorbed so far via hash_update.
Finalizing yields the policy digest of the concatenation of the absorbed
chunks, which is the incremental-hashing contract of the engine. -/
structure DigestState where
  chunks : List Bytes
deriving DecidableEq

/-- hash_init: a freshly initialized context has absorbed nothing. -/
def DigestState.hash_init : DigestState := ⟨[]⟩

/-- hash_update absorbs one more chunk, in call order. -/
def DigestState.hash_update (st : DigestState) (data : Bytes) : DigestState :=
  ⟨st.chunks ++ [data]⟩

/-- hash_final writes the digest of the absorbed stream into the output
range and invalidates the context it is called on (which is why the source
finalizes a copy). -/
def DigestState.hash_final (P : HashPolicy) (st : DigestState) :
    Bytes × DigestState :=
  (P.hash st.chunks.flatten, ⟨[]⟩)

/-- HandshakeContextImpl<Hash>: holds the running digest state. -/
structure HandshakeContextImpl where
  hashState : DigestState
deriving DecidableEq

/-- The constructor: hashState is initialized with hash_init. -/
def HandshakeContextImpl.new : HandshakeContextImpl :=
  ⟨DigestState.hash_init⟩

/-- appendToTranscript(data): hashState.hash_update(*data). -/
def HandshakeContextImpl.appendToTranscript
    (h : HandshakeContextImpl) (data : Bytes) : HandshakeContextImpl :=
  ⟨h.hashState.hash_update data⟩

/-- getHandshakeContext() const: copies the running digest state,
finalizes the copy into a buffer of Hash::HashLen bytes, and returns it.
Being const, the method leaves the receiver unchanged, so it is modelled
as returning the digest together with the (unchanged) receiver. -/
def HandshakeContextImpl.getHandshakeContext
    (P : HashPolicy) (h : HandshakeContextImpl) :
    Bytes × HandshakeContextImpl :=
  let copied := h.hashState
  let out := (copied.hash_final P).1
  (out, h)

/-- getFinishedData(baseKey) const: computes the handshake context digest,
expands the finished key from baseKey with label "finished", an empty
context buffer and output length Hash::HashLen, and HMACs the digest with
that key into a buffer of Hash::HashLen bytes. -/
def HandshakeContextImpl.getFinishedData
    (P : HashPolicy) (h : HandshakeContextImpl) (baseKey : Bytes) :
    Bytes × HandshakeContextImpl :=
  let context := (h.getHandshakeContext P).1
  let finishedKey := P.expandLabel baseKey (strBytes "finished") [] P.HashLen
  let data := P.hmac finishedKey context
  (data, h)

/-- Appending a list of messages to the transcript in order. -/
def appendAll (h : HandshakeContextImpl) (msgs : List Bytes) :
    HandshakeContextImpl :=
  msgs.foldl HandshakeContextImpl.appendToTranscript h

/-- Concrete stand-in hash policy (32-byte output), used only to evaluate
the development on concrete inputs; the production engines live outside
the excerpt. -/
def P0 : HashPolicy where
  HashLen := 32
  hash := fun b => (b ++ List.replicate 32 0).take 32
  hmac := fun k d => ((d ++ k) ++ List.replicate 32 0).take 32
  expandLabel := fun k lbl ctx n => (((k ++ lbl) ++ ctx) ++ List.replicate n 0).take n
  hash_len := by intro b; simp
  hmac_len := by intro k d; simp; omega
  expandLabel_len := by intro k lbl ctx n; simp; omega

/-- The pending event variant of FizzBase:
boost::variant<AppWrite, EarlyAppWrite, AppClose, WriteNewSessionTicket>,
each carrying its caller payload. -/
inductive PendingEvent where
  | AppWrite (data : Bytes)
  | EarlyAppWrite (data : Bytes)
  | AppClose
  | WriteNewSessionTicket (ticket : Bytes)
deriving DecidableEq

/-- A unit of work handed to the state machine: either a queued event or
the next available transport bytes. -/
inductive WorkUnit where
  | event (e : PendingEvent)
  | transportData (chunk : Bytes)
deriving DecidableEq

/-- Whether a unit of work is a queued event (as opposed to transport
bytes). -/
def WorkUnit.isEvent : WorkUnit → Bool
  | WorkUnit.event _ => true
  | WorkUnit.transportData _ => false

/-- Outcome of one state-machine processing call on a unit of work:
either a list of actions to dispatch, or a failure that moves the driver
to the error state. -/
inductive ProcessResult (A : Type) where
  | ok (actions : List A)
  | failure
deriving DecidableEq

/-- State of FizzBase, over an abstract action type A.  The fields named
with a trailing underscore are the data members declared in FizzBase.h,
with their declared initial values; deliveredUnits, dispatchedActions and
erroredEvents are observation traces recording, in order, the units of
work handed to the state machine, the actions dispatched to the visitor,
and the events failed through the error path. -/
structure FizzState (A : Type) where
  pendingEvents_ : List PendingEvent
  transportReadBuf_ : List Bytes
  waitForData_ : Bool
  inProcessPendingEvents_ : Bool
  inErrorState_ : Bool
  deliveredUnits : List WorkUnit
  dispatchedActions : List A
  erroredEvents : List PendingEvent
deriving DecidableEq

/-- A freshly constructed FizzBase: no pending events, the caller-owned
transport read buffer may already hold data, and the member initializers
of FizzBase.h give waitForData_{true}, inProcessPendingEvents_{false},
inErrorState_{false}. -/
def FizzState.construct (A : Type) (buf : List Bytes) : FizzState A where
  pendingEvents_ := []
  transportReadBuf_ := buf
  waitForData_ := true
  inProcessPendingEvents_ := false
  inErrorState_ := false
  deliveredUnits := []
  dispatchedActions := []
  erroredEvents := []

namespace FizzBase

/-- Modelled from the spec: the drain loop of processPendingEvents
(FizzBase-inl.h is not part of the excerpt).  While not in the error
state, it takes the next unit of work — the next queued event, else, when
not suspended by waitForData_, the next buffered transport bytes — hands
it to the state machine, dispatches the produced actions to the visitor
in order, and on failure transitions to the error state and stops.  fuel
bounds the number of iterations; every caller passes the number of
currently available units, which the loop can never exceed. -/
def drainLoop {A : Type} (machine : WorkUnit → ProcessResult A) :
    Nat → FizzState A → FizzState A
  | 0, s => s
  | fuel + 1, s =>
    if s.inErrorState_ then s
    else
      match s.pendingEvents_ with
      | e :: rest =>
        match machine (WorkUnit.event e) with
        | ProcessResult.ok acts =>
          drainLoop machine fuel
            { s with
              pendingEvents_ := rest
              deliveredUnits := s.deliveredUnits ++ [WorkUnit.event e]
              dispatchedActions := s.dispatchedActions ++ acts }
        | ProcessResult.failure =>
          { s with
            pendingEvents_ := rest
            deliveredUnits := s.deliveredUnits ++ [WorkUnit.event e]
            inErrorState_ := true }
      | [] =>
        if s.waitForData_ then s
        else
          match s.transportReadBuf_ with
          | [] => s
          | chunk :: restBuf =>
            match machine (WorkUnit.transportData chunk) with
            | ProcessResult.ok acts =>
              drainLoop machine fuel
                { s with
                  transportReadBuf_ := restBuf
                  deliveredUnits :=
                    s.deliveredUnits ++ [WorkUnit.transportData chunk]
                  dispatchedActions := s.dispatchedActions ++ acts }
            | ProcessResult.failure =>
              { s with
                transportReadBuf_ := restBuf
                deliveredUnits :=
                  s.deliveredUnits ++ [WorkUnit.transportData chunk]
                inErrorState_ := true }

/-- Modelled from the spec: processPendingEvents.  The
inProcessPendingEvents_ reentrancy guard is checked at entry: when it is
already set (a reentrant call from a handler callback during drain), the
call returns at once without touching the state; otherwise the guard is
set, the drain loop runs over the currently available work, and the guard
is cleared. -/
def processPendingEvents {A : Type} (machine : WorkUnit → ProcessResult A)
    (s : FizzState A) : FizzState A :=
  if s.inProcessPendingEvents_ then s
  else
    let s1 :=
      drainLoop machine
        (s.pendingEvents_.length + s.transportReadBuf_.length)
        { s with inProcessPendingEvents_ := true }
    { s1 with inProcessPendingEvents_ := false }

/-- Modelled from the spec: each submit operation enqueues its event at
the back of pendingEvents_ and then attempts to drain. -/
def submitEvent {A : Type} (machine : WorkUnit → ProcessResult A)
    (e : PendingEvent) (s : FizzState A) : FizzState A :=
  processPendingEvents machine
    { s with pendingEvents_ := s.pendingEvents_ ++ [e] }

/-- appWrite(appWrite): enqueue an AppWrite event and drain. -/
def appWrite {A : Type} (machine : WorkUnit → ProcessResult A)
    (data : Bytes) (s : FizzState A) : FizzState A :=
  submitEvent machine (PendingEvent.AppWrite data) s

/-- earlyAppWrite(appWrite): enqueue an EarlyAppWrite event and drain. -/
def earlyAppWrite {A : Type} (machine : WorkUnit → ProcessResult A)
    (data : Bytes) (s : FizzState A) : FizzState A :=
  submitEvent machine (PendingEvent.EarlyAppWrite data) s

/-- appClose(): enqueue an AppClose event and drain. -/
def appClose {A : Type} (machine : WorkUnit → ProcessResult A)
    (s : FizzState A) : FizzState A :=
  submitEvent machine PendingEvent.AppClose s

/-- writeNewSessionTicket(w): enqueue a WriteNewSessionTicket event and
drain. -/
def writeNewSessionTicket {A : Type} (machine : WorkUnit → ProcessResult A)
    (ticket : Bytes) (s : FizzState A) : FizzState A :=
  submitEvent machine (PendingEvent.WriteNewSessionTicket ticket) s

/-- waitForData(): pause consumption of transportReadBuf_. -/
def waitForData {A : Type} (s : FizzState A) : FizzState A :=
  { s with waitForData_ := true }

/-- newTransportData(): resume consumption of transportReadBuf_ and
attempt to drain. -/
def newTransportData {A : Type} (machine : WorkUnit → ProcessResult A)
    (s : FizzState A) : FizzState A :=
  processPendingEvents machine { s with waitForData_ := false }

/-- Modelled from the spec: moveToErrorState(ex).  If not already in the
error state, it sets inErrorState_, fails every currently queued event
through the error path, and thereby blocks all future processing. -/
def moveToErrorState {A : Type} (s : FizzState A) : FizzState A :=
  if s.inErrorState_ then s
  else
    { s with
      inErrorState_ := true
      erroredEvents := s.erroredEvents ++ s.pendingEvents_
      pendingEvents_ := [] }

/-- inErrorState() const observer. -/
def inErrorState {A : Type} (s : FizzState A) : Bool :=
  s.inErrorState_

end FizzBase

/-- An external call into the driver, for quantifying over the operation
sequences a caller can issue. -/
inductive DriverOp where
  | appWrite (data : Bytes)
  | earlyAppWrite (data : Bytes)
  | appClose
  | writeNewSessionTicket (ticket : Bytes)
  | waitForData
  | newTransportData
  | moveToErrorState
deriving DecidableEq

/-- Interpretation of one external call. -/
def applyOp {A : Type} (machine : WorkUnit → ProcessResult A) :
    DriverOp → FizzState A → FizzState A
  | DriverOp.appWrite data, s => FizzBase.appWrite machine data s
  | DriverOp.earlyAppWrite data, s => FizzBase.earlyAppWrite machine data s
  | DriverOp.appClose, s => FizzBase.appClose machine s
  | DriverOp.writeNewSessionTicket t, s =>
    FizzBase.writeNewSessionTicket machine t s
  | DriverOp.waitForData, s => FizzBase.waitForData s
  | DriverOp.newTransportData, s => FizzBase.newTransportData machine s
  | DriverOp.moveToErrorState, s => FizzBase.moveToErrorState s

/-- Running a sequence of external calls. -/
def run {A : Type} (machine : WorkUnit → ProcessResult A)
    (ops : List DriverOp) (s : FizzState A) : FizzState A :=
  ops.foldl (fun s op => applyOp machine op s) s

/-- The event a call would enqueue, if it is a submit call. -/
def DriverOp.submitted : DriverOp → List PendingEvent
  | DriverOp.appWrite data => [PendingEvent.AppWrite data]
  | DriverOp.earlyAppWrite data => [PendingEvent.EarlyAppWrite data]
  | DriverOp.appClose => [PendingEvent.AppClose]
  | DriverOp.writeNewSessionTicket t => [PendingEvent.WriteNewSessionTicket t]
  | _ => []

/-- All events submitted by a sequence of calls, in order. -/
def submittedAll (ops : List DriverOp) : List PendingEvent :=
  (ops.map DriverOp.submitted).flatten

/-- The submit call enqueueing a given event. -/
def submitOpOf : PendingEvent → DriverOp
  | PendingEvent.AppWrite data => DriverOp.appWrite data
  | PendingEvent.EarlyAppWrite data => DriverOp.earlyAppWrite data
  | PendingEvent.AppClose => DriverOp.appClose
  | PendingEvent.WriteNewSessionTicket t => DriverOp.writeNewSessionTicket t

/-- A state machine that never fails, given by its action map; used to
state ordering properties independently of failures. -/
def machineOf {A : Type} (acts : WorkUnit → List A) :
    WorkUnit → ProcessResult A :=
  fun u => ProcessResult.ok (acts u)

/-- Concrete state machine over Nat actions for evaluating the model. -/
def machine0 : WorkUnit → ProcessResult Nat :=
  machineOf fun u => match u with
    | WorkUnit.event (PendingEvent.AppWrite data) => 1 :: data
    | WorkUnit.event (PendingEvent.EarlyAppWrite data) => 2 :: data
    | WorkUnit.event PendingEvent.AppClose => [3]
    | WorkUnit.event (PendingEvent.WriteNewSessionTicket t) => 4 :: t
    | WorkUnit.transportData chunk => 5 :: chunk

/-- A driver state captured in the middle of a drain pass (the reentrancy
guard is set), used to evaluate the reentrancy property concretely. -/
def reentrantState : FizzState Nat where
  pendingEvents_ := [PendingEvent.AppClose]
  transportReadBuf_ := [[7]]
  waitForData_ := false
  inProcessPendingEvents_ := true
  inErrorState_ := false
  deliveredUnits := [WorkUnit.event (PendingEvent.AppWrite [9])]
  dispatchedActions := [1, 9]
  erroredEvents := []

def clientHelloBytes : Bytes := strBytes "ClientHello"

def serverHelloBytes : Bytes := strBytes "ServerHello"

def finishedMsgBytes : Bytes := strBytes "Finished-msg"

/-- The chunks absorbed by a transcript are exactly the appended messages,
in order. -/
theorem appendAll_chunks (h : HandshakeContextImpl) (msgs : List Bytes) :
    (appendAll h msgs).hashState.chunks = h.hashState.chunks ++ msgs := by
  induction msgs generalizing h with
  | nil => simp [appendAll]
  | cons m ms ih =>
    have hstep : appendAll h (m :: ms) =
        appendAll (h.appendToTranscript m) ms := rfl
    rw [hstep, ih]
    simp [HandshakeContextImpl.appendToTranscript, DigestState.hash_update]

/-- The digest of a transcript built by appending msgs in order is the
policy hash of their concatenation. -/
theorem digest_appendAll (P : HashPolicy) (msgs : List Bytes) :
    ((appendAll HandshakeContextImpl.new msgs).getHandshakeContext P).1 =
      P.hash msgs.flatten := by
  simp [HandshakeContextImpl.getHandshakeContext, DigestState.hash_final,
    appendAll_chunks, HandshakeContextImpl.new, DigestState.hash_init]

/-- C1: appending a sequence of byte strings and then reading the
handshake context gives the hash of their concatenation; in particular
appending "ClientHello" then "ServerHello" gives the hash H1 of the
concatenated bytes, a further append of "Finished-msg" gives the hash H2
of the longer concatenation, and H1 differs from H2 whenever the hash
policy separates the two concatenations. -/
theorem C1_transcript_is_hash_of_concatenation (P : HashPolicy)
    (msgs : List Bytes)
    (hne : P.hash (clientHelloBytes ++ serverHelloBytes) ≠
      P.hash (clientHelloBytes ++ serverHelloBytes ++ finishedMsgBytes)) :
    ((appendAll HandshakeContextImpl.new msgs).getHandshakeContext P).1 =
        P.hash msgs.flatten
    ∧ (((HandshakeContextImpl.new.appendToTranscript
          clientHelloBytes).appendToTranscript
            serverHelloBytes).getHandshakeContext P).1 =
        P.hash (clientHelloBytes ++ serverHelloBytes)
    ∧ ((((HandshakeContextImpl.new.appendToTranscript
          clientHelloBytes).appendToTranscript
            serverHelloBytes).appendToTranscript
              finishedMsgBytes).getHandshakeContext P).1 =
        P.hash (clientHelloBytes ++ serverHelloBytes ++ finishedMsgBytes)
    ∧ (((HandshakeContextImpl.new.appendToTranscript
          clientHelloBytes).appendToTranscript
            serverHelloBytes).getHandshakeContext P).1 ≠
        ((((HandshakeContextImpl.new.appendToTranscript
          clientHelloBytes).appendToTranscript
            serverHelloBytes).appendToTranscript
              finishedMsgBytes).getHandshakeContext P).1 := by
  have e1 : (HandshakeContextImpl.new.appendToTranscript
      clientHelloBytes).appendToTranscript serverHelloBytes =
      appendAll HandshakeContextImpl.new
        [clientHelloBytes, serverHelloBytes] := rfl
  have e2 : ((HandshakeContextImpl.new.appendToTranscript
      clientHelloBytes).appendToTranscript
        serverHelloBytes).appendToTranscript finishedMsgBytes =
      appendAll HandshakeContextImpl.new
        [clientHelloBytes, serverHelloBytes, finishedMsgBytes] := rfl
  have h1 : (((HandshakeContextImpl.new.appendToTranscript
      clientHelloBytes).appendToTranscript
        serverHelloBytes).getHandshakeContext P).1 =
      P.hash (clientHelloBytes ++ serverHelloBytes) := by
    rw [e1, digest_appendAll]
    simp
  have h2 : ((((HandshakeContextImpl.new.appendToTranscript
      clientHelloBytes).appendToTranscript
        serverHelloBytes).appendToTranscript
          finishedMsgBytes).getHandshakeContext P).1 =
      P.hash (clientHelloBytes ++ serverHelloBytes ++ finishedMsgBytes) := by
    rw [e2, digest_appendAll]
    simp
  refine ⟨digest_appendAll P msgs, h1, h2, ?_⟩
  rw [h1, h2]
  exact hne

/-- Witness for C1 at the concrete policy and the scenario messages. -/
theorem C1_witness :
    ((appendAll HandshakeContextImpl.new
        [clientHelloBytes, serverHelloBytes]).getHandshakeContext P0).1 =
        P0.hash ([clientHelloBytes, serverHelloBytes] : List Bytes).flatten
    ∧ (((HandshakeContextImpl.new.appendToTranscript
          clientHelloBytes).appendToTranscript
            serverHelloBytes).getHandshakeContext P0).1 =
        P0.hash (clientHelloBytes ++ serverHelloBytes)
    ∧ ((((HandshakeContextImpl.new.appendToTranscript
          clientHelloBytes).appendToTranscript
            serverHelloBytes).appendToTranscript
              finishedMsgBytes).getHandshakeContext P0).1 =
        P0.hash (clientHelloBytes ++ serverHelloBytes ++ finishedMsgBytes)
    ∧ (((HandshakeContextImpl.new.appendToTranscript
          clientHelloBytes).appendToTranscript
            serverHelloBytes).getHandshakeContext P0).1 ≠
        ((((HandshakeContextImpl.new.appendToTranscript
          clientHelloBytes).appendToTranscript
            serverHelloBytes).appendToTranscript
              finishedMsgBytes).getHandshakeContext P0).1 :=
  C1_transcript_is_hash_of_concatenation P0
    [clientHelloBytes, serverHelloBytes] (by decide)

/-- C2: getFinishedData(baseKey) is the HMAC, keyed by the finished key
expanded from baseKey with label "finished", empty context and
digest-length output, of the digest getHandshakeContext would return. -/
theorem C2_getFinishedData_formula (P : HashPolicy)
    (h : HandshakeContextImpl) (baseKey : Bytes) :
    (h.getFinishedData P baseKey).1 =
      P.hmac (P.expandLabel baseKey (strBytes "finished") [] P.HashLen)
        ((h.getHandshakeContext P).1) := rfl

/-- C3: getHandshakeContext does not mutate the transcript state: the
receiver is returned unchanged, a second call returns the same digest,
and later appendToTranscript and getFinishedData results are the same as
if the call had not happened. -/
theorem C3_getHandshakeContext_nonmutating (P : HashPolicy)
    (h : HandshakeContextImpl) :
    (h.getHandshakeContext P).2 = h
    ∧ (((h.getHandshakeContext P).2).getHandshakeContext P).1 =
        (h.getHandshakeContext P).1
    ∧ (∀ data : Bytes,
        ((h.getHandshakeContext P).2).appendToTranscript data =
          h.appendToTranscript data)
    ∧ (∀ baseKey : Bytes,
        ((h.getHandshakeContext P).2).getFinishedData P baseKey =
          h.getFinishedData P baseKey) :=
  ⟨rfl, rfl, fun _ => rfl, fun _ => rfl⟩

/-- C4 counterexample: the sequences ["ab"] and ["a", "b"] are distinct,
non-empty, carry the same total bytes and differ in grouping, yet the
resulting digests are equal, so the claim as stated is false. -/
theorem C4_counterexample :
    ([strBytes "ab"] : List Bytes) ≠ [strBytes "a", strBytes "b"]
    ∧ (List.flatten ([strBytes "ab"] : List Bytes)).length =
        (List.flatten ([strBytes "a", strBytes "b"] : List Bytes)).length
    ∧ ((appendAll HandshakeContextImpl.new
          [strBytes "ab"]).getHandshakeContext P0).1 =
        ((appendAll HandshakeContextImpl.new
          [strBytes "a", strBytes "b"]).getHandshakeContext P0).1 := by
  decide

/-- C4 (amended): the digest depends only on the concatenation of the
appended payloads: sequences with equal concatenations (in particular any
regrouping of the same byte stream) give identical digests, and sequences
give different digests whenever the hash policy separates their
concatenations (as reordering that changes the stream does for a real
hash). -/
theorem C4_digest_depends_only_on_concatenation (P : HashPolicy)
    (xs ys : List Bytes) :
    (xs.flatten = ys.flatten →
      ((appendAll HandshakeContextImpl.new xs).getHandshakeContext P).1 =
        ((appendAll HandshakeContextImpl.new ys).getHandshakeContext P).1)
    ∧ (P.hash xs.flatten ≠ P.hash ys.flatten →
      ((appendAll HandshakeContextImpl.new xs).getHandshakeContext P).1 ≠
        ((appendAll HandshakeContextImpl.new ys).getHandshakeContext P).1) := by
  rw [digest_appendAll, digest_appendAll]
  exact ⟨fun he => by rw [he], fun hne => hne⟩

/-- Witness for C4 (amended): a regrouping keeps the digest, a reorder
that the concrete policy separates changes it. -/
theorem C4_amended_witness :
    ((appendAll HandshakeContextImpl.new
        [strBytes "ab"]).getHandshakeContext P0).1 =
      ((appendAll HandshakeContextImpl.new
        [strBytes "a", strBytes "b"]).getHandshakeContext P0).1
    ∧ ((appendAll HandshakeContextImpl.new
        [strBytes "ab"]).getHandshakeContext P0).1 ≠
      ((appendAll HandshakeContextImpl.new
        [strBytes "ba"]).getHandshakeContext P0).1 :=
  ⟨(C4_digest_depends_only_on_concatenation P0
      [strBytes "ab"] [strBytes "a", strBytes "b"]).1 (by decide),
   (C4_digest_depends_only_on_concatenation P0
      [strBytes "ab"] [strBytes "ba"]).2 (by decide)⟩

/-- C5: getFinishedData is deterministic: with the transcript state and
the base key fixed, a second invocation (on the state returned by the
first) returns a byte-identical tag, and the state is unchanged. -/
theorem C5_getFinishedData_deterministic (P : HashPolicy)
    (h : HandshakeContextImpl) (baseKey : Bytes) :
    (h.getFinishedData P baseKey).1 =
      (((h.getFinishedData P baseKey).2).getFinishedData P baseKey).1
    ∧ (h.getFinishedData P baseKey).2 = h :=
  ⟨rfl, rfl⟩

/-- In the error state the drain loop does nothing. -/
theorem drainLoop_error {A : Type} (machine : WorkUnit → ProcessResult A)
    (fuel : Nat) (s : FizzState A) (h : s.inErrorState_ = true) :
    FizzBase.drainLoop machine fuel s = s := by
  cases fuel with
  | zero => rfl
  | succ fuel => simp [FizzBase.drainLoop, h]

/-- In the error state processPendingEvents leaves the state unchanged. -/
theorem processPendingEvents_error {A : Type}
    (machine : WorkUnit → ProcessResult A) (s : FizzState A)
    (h : s.inErrorState_ = true) :
    FizzBase.processPendingEvents machine s = s := by
  unfold FizzBase.processPendingEvents
  split
  · rfl
  · rename_i hg
    rw [drainLoop_error machine _ _ (by simpa using h)]
    cases s
    simp_all

/-- In the error state a submit call only enqueues its event. -/
theorem submitEvent_error {A : Type} (machine : WorkUnit → ProcessResult A)
    (e : PendingEvent) (s : FizzState A) (h : s.inErrorState_ = true) :
    FizzBase.submitEvent machine e s =
      { s with pendingEvents_ := s.pendingEvents_ ++ [e] } := by
  unfold FizzBase.submitEvent
  exact processPendingEvents_error machine _ (by simpa using h)

/-- Frame lemma: from an error state, any sequence of external calls
keeps the error flag, delivers no unit of work, dispatches no action, and
only accumulates submitted events in the queue. -/
theorem run_error_frame {A : Type} (machine : WorkUnit → ProcessResult A)
    (ops : List DriverOp) :
    ∀ s : FizzState A, s.inErrorState_ = true →
      (run machine ops s).inErrorState_ = true
      ∧ (run machine ops s).deliveredUnits = s.deliveredUnits
      ∧ (run machine ops s).dispatchedActions = s.dispatchedActions
      ∧ (run machine ops s).pendingEvents_ =
          s.pendingEvents_ ++ submittedAll ops := by
  induction ops with
  | nil => intro s h; simp [run, submittedAll, h]
  | cons op rest ih =>
    intro s h
    have hstep : run machine (op :: rest) s =
        run machine rest (applyOp machine op s) := rfl
    have hop : (applyOp machine op s).inErrorState_ = true
        ∧ (applyOp machine op s).deliveredUnits = s.deliveredUnits
        ∧ (applyOp machine op s).dispatchedActions = s.dispatchedActions
        ∧ (applyOp machine op s).pendingEvents_ =
            s.pendingEvents_ ++ op.submitted := by
      cases op with
      | appWrite data =>
        rw [applyOp, FizzBase.appWrite, submitEvent_error machine _ _ h]
        simp [DriverOp.submitted, h]
      | earlyAppWrite data =>
        rw [applyOp, FizzBase.earlyAppWrite, submitEvent_error machine _ _ h]
        simp [DriverOp.submitted, h]
      | appClose =>
        rw [applyOp, FizzBase.appClose, submitEvent_error machine _ _ h]
        simp [DriverOp.submitted, h]
      | writeNewSessionTicket t =>
        rw [applyOp, FizzBase.writeNewSessionTicket,
          submitEvent_error machine _ _ h]
        simp [DriverOp.submitted, h]
      | waitForData =>
        simp [applyOp, FizzBase.waitForData, DriverOp.submitted, h]
      | newTransportData =>
        rw [applyOp, FizzBase.newTransportData,
          processPendingEvents_error machine _ (by simpa using h)]
        simp [DriverOp.submitted, h]
      | moveToErrorState =>
        simp [applyOp, FizzBase.moveToErrorState, DriverOp.submitted, h]
    obtain ⟨h1, h2, h3, h4⟩ := hop
    obtain ⟨g1, g2, g3, g4⟩ := ih (applyOp machine op s) h1
    refine ⟨?_, ?_, ?_, ?_⟩ <;> rw [hstep]
    · exact g1
    · rw [g2, h2]
    · rw [g3, h3]
    · rw [g4, h4]
      simp [submittedAll, List.append_assoc]

/-- moveToErrorState always leaves the driver in the error state. -/
theorem moveToErrorState_sets_flag {A : Type} (s : FizzState A) :
    (FizzBase.moveToErrorState s).inErrorState_ = true := by
  unfold FizzBase.moveToErrorState
  split
  · assumption
  · rfl

/-- C6: after moveToErrorState, every subsequent sequence of external
calls passes no unit of work to the state machine, dispatches no action,
keeps inErrorState() true, and submit calls are accepted into the queue
but never drained. -/
theorem C6_error_state_permanent {A : Type}
    (machine : WorkUnit → ProcessResult A) (ops : List DriverOp)
    (s : FizzState A) :
    FizzBase.inErrorState
        (run machine ops (FizzBase.moveToErrorState s)) = true
    ∧ (run machine ops (FizzBase.moveToErrorState s)).deliveredUnits =
        (FizzBase.moveToErrorState s).deliveredUnits
    ∧ (run machine ops (FizzBase.moveToErrorState s)).dispatchedActions =
        (FizzBase.moveToErrorState s).dispatchedActions
    ∧ (run machine ops (FizzBase.moveToErrorState s)).pendingEvents_ =
        (FizzBase.moveToErrorState s).pendingEvents_ ++ submittedAll ops := by
  have h :=
    run_error_frame machine ops (FizzBase.moveToErrorState s)
      (moveToErrorState_sets_flag s)
  exact ⟨h.1, h.2.1, h.2.2.1, h.2.2.2⟩

/-- C7: the inProcessPendingEvents_ guard keeps processing single: a
submit call issued while a drain pass is running (as a handler callback
would do reentrantly) only enqueues its event at the back of the queue
and returns the state otherwise untouched, so it never starts a second
concurrent processing call. -/
theorem C7_reentrant_submit_only_enqueues {A : Type}
    (machine : WorkUnit → ProcessResult A) (data ticket : Bytes)
    (s : FizzState A) (h : s.inProcessPendingEvents_ = true) :
    FizzBase.appWrite machine data s =
      { s with pendingEvents_ :=
          s.pendingEvents_ ++ [PendingEvent.AppWrite data] }
    ∧ FizzBase.earlyAppWrite machine data s =
      { s with pendingEvents_ :=
          s.pendingEvents_ ++ [PendingEvent.EarlyAppWrite data] }
    ∧ FizzBase.appClose machine s =
      { s with pendingEvents_ :=
          s.pendingEvents_ ++ [PendingEvent.AppClose] }
    ∧ FizzBase.writeNewSessionTicket machine ticket s =
      { s with pendingEvents_ :=
          s.pendingEvents_ ++ [PendingEvent.WriteNewSessionTicket ticket] } := by
  have key : ∀ e : PendingEvent, FizzBase.submitEvent machine e s =
      { s with pendingEvents_ := s.pendingEvents_ ++ [e] } := by
    intro e
    unfold FizzBase.submitEvent FizzBase.processPendingEvents
    simp [h]
  exact ⟨key _, key _, key _, key _⟩

/-- Witness for C7 at a concrete mid-drain state. -/
theorem C7_witness :
    FizzBase.appWrite machine0 (strBytes "A") reentrantState =
      { reentrantState with pendingEvents_ :=
          reentrantState.pendingEvents_ ++
            [PendingEvent.AppWrite (strBytes "A")] }
    ∧ FizzBase.earlyAppWrite machine0 (strBytes "A") reentrantState =
      { reentrantState with pendingEvents_ :=
          reentrantState.pendingEvents_ ++
            [PendingEvent.EarlyAppWrite (strBytes "A")] }
    ∧ FizzBase.appClose machine0 reentrantState =
      { reentrantState with pendingEvents_ :=
          reentrantState.pendingEvents_ ++ [PendingEvent.AppClose] }
    ∧ FizzBase.writeNewSessionTicket machine0 (strBytes "T") reentrantState =
      { reentrantState with pendingEvents_ :=
          reentrantState.pendingEvents_ ++
            [PendingEvent.WriteNewSessionTicket (strBytes "T")] } :=
  C7_reentrant_submit_only_enqueues machine0 (strBytes "A") (strBytes "T")
    reentrantState (by decide)

/-- The drain loop preserves the relation "the dispatched actions are
exactly the actions of the delivered units, concatenated in order", for a
state machine that never fails. -/
theorem drainLoop_dispatch_flatten {A : Type} (acts : WorkUnit → List A)
    (fuel : Nat) :
    ∀ s : FizzState A,
      s.dispatchedActions = (s.deliveredUnits.map acts).flatten →
      (FizzBase.drainLoop (machineOf acts) fuel s).dispatchedActions =
        (((FizzBase.drainLoop (machineOf acts) fuel
            s).deliveredUnits).map acts).flatten := by
  induction fuel with
  | zero => intro s h; simpa [FizzBase.drainLoop] using h
  | succ fuel ih =>
    intro s h
    by_cases he : s.inErrorState_ = true
    · rw [drainLoop_error _ _ _ he]; exact h
    · have he2 : s.inErrorState_ = false := by simpa using he
      cases hq : s.pendingEvents_ with
      | cons e rest =>
        have hstep : FizzBase.drainLoop (machineOf acts) (fuel + 1) s =
            FizzBase.drainLoop (machineOf acts) fuel
              { s with
                pendingEvents_ := rest
                deliveredUnits := s.deliveredUnits ++ [WorkUnit.event e]
                dispatchedActions :=
                  s.dispatchedActions ++ acts (WorkUnit.event e) } := by
          simp only [FizzBase.drainLoop]
          simp [he2, hq, machineOf]
        rw [hstep]
        apply ih
        simp [h]
      | nil =>
        by_cases hw : s.waitForData_ = true
        · have hstep : FizzBase.drainLoop (machineOf acts) (fuel + 1) s = s := by
            simp only [FizzBase.drainLoop]
            simp [he2, hq, hw]
          rw [hstep]; exact h
        · have hw2 : s.waitForData_ = false := by simpa using hw
          cases hb : s.transportReadBuf_ with
          | nil =>
            have hstep : FizzBase.drainLoop (machineOf acts) (fuel + 1) s = s := by
              simp only [FizzBase.drainLoop]
              simp [he2, hq, hw2, hb]
            rw [hstep]; exact h
          | cons c restBuf =>
            have hstep : FizzBase.drainLoop (machineOf acts) (fuel + 1) s =
                FizzBase.drainLoop (machineOf acts) fuel
                  { s with
                    transportReadBuf_ := restBuf
                    deliveredUnits :=
                      s.deliveredUnits ++ [WorkUnit.transportData c]
                    dispatchedActions :=
                      s.dispatchedActions ++
                        acts (WorkUnit.transportData c) } := by
              simp only [FizzBase.drainLoop]
              simp [he2, hq, hw2, hb, machineOf]
            rw [hstep]
            apply ih
            simp [h]

/-- processPendingEvents preserves the dispatch-order relation for a
state machine that never fails. -/
theorem processPendingEvents_dispatch_flatten {A : Type}
    (acts : WorkUnit → List A) (s : FizzState A)
    (h : s.dispatchedActions = (s.deliveredUnits.map acts).flatten) :
    (FizzBase.processPendingEvents (machineOf acts) s).dispatchedActions =
      (((FizzBase.processPendingEvents (machineOf acts)
          s).deliveredUnits).map acts).flatten := by
  unfold FizzBase.processPendingEvents
  split
  · exact h
  · have hd := drainLoop_dispatch_flatten acts
      (s.pendingEvents_.length + s.transportReadBuf_.length)
      { s with inProcessPendingEvents_ := true } (by simpa using h)
    simpa using hd

/-- Every sequence of external calls preserves the dispatch-order
relation for a state machine that never fails. -/
theorem run_dispatch_flatten {A : Type} (acts : WorkUnit → List A)
    (ops : List DriverOp) :
    ∀ s : FizzState A,
      s.dispatchedActions = (s.deliveredUnits.map acts).flatten →
      (run (machineOf acts) ops s).dispatchedActions =
        (((run (machineOf acts) ops s).deliveredUnits).map acts).flatten := by
  induction ops with
  | nil => intro s h; exact h
  | cons op rest ih =>
    intro s h
    have hstep : run (machineOf acts) (op :: rest) s =
        run (machineOf acts) rest (applyOp (machineOf acts) op s) := rfl
    rw [hstep]
    apply ih
    have hsub : ∀ e : PendingEvent,
        (FizzBase.submitEvent (machineOf acts) e s).dispatchedActions =
          (((FizzBase.submitEvent (machineOf acts)
              e s).deliveredUnits).map acts).flatten := by
      intro e
      unfold FizzBase.submitEvent
      exact processPendingEvents_dispatch_flatten acts _ (by simpa using h)
    cases op with
    | appWrite data => exact hsub (PendingEvent.AppWrite data)
    | earlyAppWrite data => exact hsub (PendingEvent.EarlyAppWrite data)
    | appClose => exact hsub PendingEvent.AppClose
    | writeNewSessionTicket t =>
      exact hsub (PendingEvent.WriteNewSessionTicket t)
    | waitForData => simpa [applyOp, FizzBase.waitForData] using h
    | newTransportData =>
      have hnt : applyOp (machineOf acts) DriverOp.newTransportData s =
          FizzBase.processPendingEvents (machineOf acts)
            { s with waitForData_ := false } := rfl
      rw [hnt]
      exact processPendingEvents_dispatch_flatten acts _ (by simpa using h)
    | moveToErrorState =>
      have hme : applyOp (machineOf acts) DriverOp.moveToErrorState s =
          FizzBase.moveToErrorState s := rfl
      rw [hme]
      unfold FizzBase.moveToErrorState
      split
      · exact h
      · simpa using h

/-- The drain loop, started not in error and with transport consumption
suspended, hands every queued event to the state machine in queue order
and dispatches the produced actions in that order, for a state machine
that never fails. -/
theorem drainLoop_processes_queue {A : Type} (acts : WorkUnit → List A)
    (q : List PendingEvent) :
    ∀ (fuel : Nat) (s : FizzState A),
      s.pendingEvents_ = q → s.waitForData_ = true →
      s.inErrorState_ = false → q.length ≤ fuel →
      FizzBase.drainLoop (machineOf acts) fuel s =
        { s with
          pendingEvents_ := []
          deliveredUnits := s.deliveredUnits ++ q.map WorkUnit.event
          dispatchedActions := s.dispatchedActions ++
            ((q.map WorkUnit.event).map acts).flatten } := by
  induction q with
  | nil =>
    intro fuel s hq hw he hfuel
    obtain ⟨p, b, w, g, er, du, da, ee⟩ := s
    simp only at hq hw he
    subst hq hw he
    cases fuel with
    | zero => simp [FizzBase.drainLoop]
    | succ fuel =>
      simp only [FizzBase.drainLoop]
      simp
  | cons e q ih =>
    intro fuel s hq hw he hfuel
    cases fuel with
    | zero => exact absurd hfuel (by simp)
    | succ fuel =>
      obtain ⟨p, b, w, g, er, du, da, ee⟩ := s
      simp only at hq hw he
      subst hq hw he
      have hstep : FizzBase.drainLoop (machineOf acts) (fuel + 1)
          ⟨e :: q, b, true, g, false, du, da, ee⟩ =
          FizzBase.drainLoop (machineOf acts) fuel
            ⟨q, b, true, g, false, du ++ [WorkUnit.event e],
              da ++ acts (WorkUnit.event e), ee⟩ := by
        simp only [FizzBase.drainLoop]
        simp [machineOf]
      rw [hstep,
        ih fuel _ rfl rfl rfl (by simpa using hfuel)]
      simp

/-- A submit call is dispatched through submitEvent. -/
theorem applyOp_submitOpOf {A : Type} (machine : WorkUnit → ProcessResult A)
    (e : PendingEvent) (s : FizzState A) :
    applyOp machine (submitOpOf e) s = FizzBase.submitEvent machine e s := by
  cases e <;> rfl

/-- From a quiescent state (empty queue, suspended transport, guard
clear, no error), a sequence of submit calls delivers exactly the
submitted events, in submission order, and dispatches exactly their
actions in that order, for a state machine that never fails. -/
theorem run_submits {A : Type} (acts : WorkUnit → List A)
    (es : List PendingEvent) :
    ∀ s : FizzState A,
      s.pendingEvents_ = [] → s.waitForData_ = true →
      s.inProcessPendingEvents_ = false → s.inErrorState_ = false →
      run (machineOf acts) (es.map submitOpOf) s =
        { s with
          deliveredUnits := s.deliveredUnits ++ es.map WorkUnit.event
          dispatchedActions := s.dispatchedActions ++
            ((es.map WorkUnit.event).map acts).flatten } := by
  induction es with
  | nil =>
    intro s hq hw hg he
    obtain ⟨p, b, w, g, er, du, da, ee⟩ := s
    simp [run]
  | cons e es ih =>
    intro s hq hw hg he
    obtain ⟨p, b, w, g, er, du, da, ee⟩ := s
    simp only at hq hw hg he
    subst hq hw hg he
    have hstep : run (machineOf acts) ((e :: es).map submitOpOf)
        (⟨[], b, true, false, false, du, da, ee⟩ : FizzState A) =
        run (machineOf acts) (es.map submitOpOf)
          (FizzBase.submitEvent (machineOf acts) e
            ⟨[], b, true, false, false, du, da, ee⟩) := by
      rw [List.map_cons]
      show run (machineOf acts) (submitOpOf e :: es.map submitOpOf) _ =
        _
      rw [run, List.foldl_cons, applyOp_submitOpOf]
      rfl
    have hsub : FizzBase.submitEvent (machineOf acts) e
        (⟨[], b, true, false, false, du, da, ee⟩ : FizzState A) =
        ⟨[], b, true, false, false, du ++ [WorkUnit.event e],
          da ++ acts (WorkUnit.event e), ee⟩ := by
      unfold FizzBase.submitEvent FizzBase.processPendingEvents
      rw [if_neg (by simp)]
      rw [drainLoop_processes_queue acts [e] _ _ rfl rfl rfl (by simp)]
      simp
    rw [hstep, hsub, ih _ rfl rfl rfl rfl]
    simp

/-- C8: for a state machine that never fails, the actions dispatched to
the handler always appear in exactly the order of the units that
triggered them; a sequence of submit calls from a quiescent driver is
delivered in submission order; in particular appWrite(A) then appWrite(B)
makes the handler observe the write actions of A before those of B. -/
theorem C8_actions_in_acceptance_order {A : Type}
    (acts : WorkUnit → List A) (buf : List Bytes) :
    (∀ ops : List DriverOp,
      (run (machineOf acts) ops (FizzState.construct A buf)).dispatchedActions =
        (((run (machineOf acts) ops
            (FizzState.construct A buf)).deliveredUnits).map acts).flatten)
    ∧ (∀ es : List PendingEvent,
      (run (machineOf acts) (es.map submitOpOf)
          (FizzState.construct A buf)).deliveredUnits =
        es.map WorkUnit.event)
    ∧ (∀ dA dB : Bytes,
      (FizzBase.appWrite (machineOf acts) dB
          (FizzBase.appWrite (machineOf acts) dA
            (FizzState.construct A buf))).deliveredUnits =
        [WorkUnit.event (PendingEvent.AppWrite dA),
          WorkUnit.event (PendingEvent.AppWrite dB)]
      ∧ (FizzBase.appWrite (machineOf acts) dB
          (FizzBase.appWrite (machineOf acts) dA
            (FizzState.construct A buf))).dispatchedActions =
        acts (WorkUnit.event (PendingEvent.AppWrite dA)) ++
          acts (WorkUnit.event (PendingEvent.AppWrite dB))) := by
  refine ⟨?_, ?_, ?_⟩
  · intro ops
    exact run_dispatch_flatten acts ops _ (by simp [FizzState.construct])
  · intro es
    rw [run_submits acts es _ rfl rfl rfl rfl]
    simp [FizzState.construct]
  · intro dA dB
    have hrw : FizzBase.appWrite (machineOf acts) dB
        (FizzBase.appWrite (machineOf acts) dA
          (FizzState.construct A buf)) =
        run (machineOf acts)
          ([PendingEvent.AppWrite dA, PendingEvent.AppWrite dB].map
            submitOpOf)
          (FizzState.construct A buf) := rfl
    rw [hrw, run_submits acts _ _ rfl rfl rfl rfl]
    constructor
    · simp [FizzState.construct]
    · simp [FizzState.construct]

/-- While waitForData_ is set the drain loop keeps it set, never touches
the transport read buffer, and delivers only queued events to the state
machine. -/
theorem drainLoop_waiting_frame {A : Type}
    (machine : WorkUnit → ProcessResult A) (fuel : Nat) :
    ∀ s : FizzState A, s.waitForData_ = true →
      (FizzBase.drainLoop machine fuel s).waitForData_ = true
      ∧ (FizzBase.drainLoop machine fuel s).transportReadBuf_ =
          s.transportReadBuf_
      ∧ (s.deliveredUnits.all WorkUnit.isEvent = true →
          (FizzBase.drainLoop machine fuel
            s).deliveredUnits.all WorkUnit.isEvent = true) := by
  induction fuel with
  | zero => intro s hw; exact ⟨hw, rfl, fun hd => hd⟩
  | succ fuel ih =>
    intro s hw
    by_cases he : s.inErrorState_ = true
    · rw [drainLoop_error _ _ _ he]
      exact ⟨hw, rfl, fun hd => hd⟩
    · have he2 : s.inErrorState_ = false := by simpa using he
      cases hq : s.pendingEvents_ with
      | nil =>
        have hstep : FizzBase.drainLoop machine (fuel + 1) s = s := by
          simp only [FizzBase.drainLoop]
          simp [he2, hq, hw]
        rw [hstep]
        exact ⟨hw, rfl, fun hd => hd⟩
      | cons e rest =>
        cases hm : machine (WorkUnit.event e) with
        | ok actsList =>
          have hstep : FizzBase.drainLoop machine (fuel + 1) s =
              FizzBase.drainLoop machine fuel
                { s with
                  pendingEvents_ := rest
                  deliveredUnits := s.deliveredUnits ++ [WorkUnit.event e]
                  dispatchedActions := s.dispatchedActions ++ actsList } := by
            simp only [FizzBase.drainLoop]
            simp [he2, hq, hm]
          rw [hstep]
          obtain ⟨f1, f2, f3⟩ := ih
            { s with
              pendingEvents_ := rest
              deliveredUnits := s.deliveredUnits ++ [WorkUnit.event e]
              dispatchedActions := s.dispatchedActions ++ actsList }
            (by simpa using hw)
          refine ⟨f1, by simpa using f2, ?_⟩
          intro hd
          apply f3
          simp [hd, WorkUnit.isEvent]
        | failure =>
          have hstep : FizzBase.drainLoop machine (fuel + 1) s =
              { s with
                pendingEvents_ := rest
                deliveredUnits := s.deliveredUnits ++ [WorkUnit.event e]
                inErrorState_ := true } := by
            simp only [FizzBase.drainLoop]
            simp [he2, hq, hm]
          rw [hstep]
          refine ⟨by simpa using hw, by simp, ?_⟩
          intro hd
          simp [hd, WorkUnit.isEvent]

/-- While waitForData_ is set processPendingEvents keeps it set, never
touches the transport read buffer, and delivers only queued events. -/
theorem processPendingEvents_waiting_frame {A : Type}
    (machine : WorkUnit → ProcessResult A) (s : FizzState A)
    (hw : s.waitForData_ = true) :
    (FizzBase.processPendingEvents machine s).waitForData_ = true
    ∧ (FizzBase.processPendingEvents machine s).transportReadBuf_ =
        s.transportReadBuf_
    ∧ (s.deliveredUnits.all WorkUnit.isEvent = true →
        (FizzBase.processPendingEvents machine
          s).deliveredUnits.all WorkUnit.isEvent = true) := by
  unfold FizzBase.processPendingEvents
  split
  · exact ⟨hw, rfl, fun hd => hd⟩
  · obtain ⟨f1, f2, f3⟩ :=
      drainLoop_waiting_frame machine
        (s.pendingEvents_.length + s.transportReadBuf_.length)
        { s with inProcessPendingEvents_ := true } (by simpa using hw)
    exact ⟨by simpa using f1, by simpa using f2,
      fun hd => by simpa using f3 (by simpa using hd)⟩

/-- Before the first newTransportData call, every sequence of external
calls keeps waitForData_ set, leaves the transport read buffer untouched,
and delivers only queued events to the state machine. -/
theorem run_no_transport_frame {A : Type}
    (machine : WorkUnit → ProcessResult A) (ops : List DriverOp) :
    ∀ s : FizzState A, DriverOp.newTransportData ∉ ops →
      s.waitForData_ = true →
      (run machine ops s).waitForData_ = true
      ∧ (run machine ops s).transportReadBuf_ = s.transportReadBuf_
      ∧ (s.deliveredUnits.all WorkUnit.isEvent = true →
          (run machine ops s).deliveredUnits.all WorkUnit.isEvent = true) := by
  induction ops with
  | nil => intro s _ hw; exact ⟨hw, rfl, fun hd => hd⟩
  | cons op rest ih =>
    intro s hmem hw
    have hop1 : op ≠ DriverOp.newTransportData := by
      intro hcontra
      exact hmem (by simp [hcontra])
    have hop2 : DriverOp.newTransportData ∉ rest := by
      intro hcontra
      exact hmem (List.mem_cons_of_mem _ hcontra)
    have hstep : run machine (op :: rest) s =
        run machine rest (applyOp machine op s) := rfl
    have hsubf : ∀ e : PendingEvent,
        (FizzBase.submitEvent machine e s).waitForData_ = true
        ∧ (FizzBase.submitEvent machine e s).transportReadBuf_ =
            s.transportReadBuf_
        ∧ (s.deliveredUnits.all WorkUnit.isEvent = true →
            (FizzBase.submitEvent machine
              e s).deliveredUnits.all WorkUnit.isEvent = true) := by
      intro e
      unfold FizzBase.submitEvent
      have hf := processPendingEvents_waiting_frame machine
        { s with pendingEvents_ := s.pendingEvents_ ++ [e] }
        (by simpa using hw)
      exact ⟨hf.1, by simpa using hf.2.1,
        fun hd => hf.2.2 (by simpa using hd)⟩
    have hopframe : (applyOp machine op s).waitForData_ = true
        ∧ (applyOp machine op s).transportReadBuf_ = s.transportReadBuf_
        ∧ (s.deliveredUnits.all WorkUnit.isEvent = true →
            (applyOp machine op s).deliveredUnits.all
              WorkUnit.isEvent = true) := by
      cases op with
      | appWrite data => exact hsubf (PendingEvent.AppWrite data)
      | earlyAppWrite data => exact hsubf (PendingEvent.EarlyAppWrite data)
      | appClose => exact hsubf PendingEvent.AppClose
      | writeNewSessionTicket t =>
        exact hsubf (PendingEvent.WriteNewSessionTicket t)
      | waitForData =>
        exact ⟨by simp [applyOp, FizzBase.waitForData],
          by simp [applyOp, FizzBase.waitForData], fun hd => by
            simpa [applyOp, FizzBase.waitForData] using hd⟩
      | newTransportData => exact absurd rfl hop1
      | moveToErrorState =>
        have hme : applyOp machine DriverOp.moveToErrorState s =
            FizzBase.moveToErrorState s := rfl
        rw [hme]
        unfold FizzBase.moveToErrorState
        split
        · exact ⟨hw, rfl, fun hd => hd⟩
        · exact ⟨by simpa using hw, by simp, fun hd => by simpa using hd⟩
    obtain ⟨p1, p2, p3⟩ := hopframe
    obtain ⟨q1, q2, q3⟩ := ih (applyOp machine op s) hop2 p1
    refine ⟨?_, ?_, ?_⟩ <;> rw [hstep]
    · exact q1
    · rw [q2, p2]
    · intro hd
      exact q3 (p3 hd)

/-- C9: a freshly constructed FizzBase starts with waitForData_ true, and
until newTransportData is called for the first time no byte already
present in the transport read buffer is consumed and no transport unit is
handed to the state machine. -/
theorem C9_initial_wait_for_data {A : Type}
    (machine : WorkUnit → ProcessResult A) (buf : List Bytes)
    (ops : List DriverOp) (h : DriverOp.newTransportData ∉ ops) :
    (FizzState.construct A buf).waitForData_ = true
    ∧ (run machine ops (FizzState.construct A buf)).transportReadBuf_ = buf
    ∧ (run machine ops (FizzState.construct A buf)).deliveredUnits.all
        WorkUnit.isEvent = true := by
  obtain ⟨f1, f2, f3⟩ :=
    run_no_transport_frame machine ops (FizzState.construct A buf) h rfl
  exact ⟨rfl, f2, f3 rfl⟩

/-- Witness for C9: a concrete call sequence without newTransportData
leaves two buffered transport chunks untouched. -/
theorem C9_witness :
    (FizzState.construct Nat [[1, 2], [3]]).waitForData_ = true
    ∧ (run machine0
        [DriverOp.appWrite [9], DriverOp.appClose,
          DriverOp.moveToErrorState, DriverOp.appWrite [8]]
        (FizzState.construct Nat [[1, 2], [3]])).transportReadBuf_ =
      [[1, 2], [3]]
    ∧ (run machine0
        [DriverOp.appWrite [9], DriverOp.appClose,
          DriverOp.moveToErrorState, DriverOp.appWrite [8]]
        (FizzState.construct Nat [[1, 2], [3]])).deliveredUnits.all
      WorkUnit.isEvent = true :=
  C9_initial_wait_for_data machine0 [[1, 2], [3]]
    [DriverOp.appWrite [9], DriverOp.appClose,
      DriverOp.moveToErrorState, DriverOp.appWrite [8]] (by decide)

/-- C10: the handshake context digest and the finished tag each have
exactly Hash::HashLen bytes. -/
theorem C10_output_lengths (P : HashPolicy) (h : HandshakeContextImpl)
    (baseKey : Bytes) :
    ((h.getHandshakeContext P).1).length = P.HashLen
    ∧ ((h.getFinishedData P baseKey).1).length = P.HashLen :=
  ⟨P.hash_len _, P.hmac_len _ _⟩

end Fizz
